import Mathlib

/-!
Verification of the Runestone etching client (a Bitcoin Runes commit/reveal
web app): the LEB128 varint codec, rune-name encoding, tagged payload
serialization, envelope framing, reveal fee computation, and the
commit/reveal submission state machine.

Machine integers of the source are modelled as `Nat` (the source uses
JavaScript `bigint`, which is arbitrary precision, and all values reaching
the codec are non-negative); byte buffers are `List Nat`; fallible
JavaScript code (`throw`) is modelled with `Except String`.
-/

set_option maxRecDepth 4096

/-! ## LEB128 varint codec (src/src/utils/leb128.ts, duplicated in the
rune utils module) -/

/-- One iteration bound for the `while (more)` loop of `encodeLeb128`.
The loop runs once per base-128 digit, so `value + 1` iterations always
suffice; the fuel parameter makes the translation structurally recursive
and hence executable by `decide`. On non-negative input the source's
signed stop condition `value === -1n && (byte & 0x40) !== 0` can never
fire, so only the `value === 0n && (byte & 0x40) === 0` disjunct remains. -/
def encodeLeb128Go : Nat → Nat → List Nat
  | 0, _ => []
  | fuel + 1, value =>
    let byte := value &&& 0x7f
    if value >>> 7 = 0 ∧ byte &&& 0x40 = 0 then
      [byte]
    else
      (byte ||| 0x80) :: encodeLeb128Go fuel (value >>> 7)

/-- `encodeLeb128` from `src/src/utils/leb128.ts`: emit 7 bits at a time,
continuation bit `0x80` on every byte but the last, stopping once the
remaining value is zero and bit 6 of the emitted byte is clear. -/
def encodeLeb128 (value : Nat) : List Nat :=
  encodeLeb128Go (value + 1) value

/-- The loop body of `decodeLeb128`: accumulate `byte &&& 0x7f` shifted by
the running shift, break when the continuation bit is clear.  Returns the
accumulated value together with the number of bytes examined; the source
returns the accumulated value even when the input runs out before a
terminating byte. -/
def decodeLeb128Go : List Nat → Nat → Nat → Nat × Nat
  | [], result, _ => (result, 0)
  | b :: rest, result, shift =>
    let result := result ||| ((b &&& 0x7f) <<< shift)
    if b &&& 0x80 = 0 then
      (result, 1)
    else
      let r := decodeLeb128Go rest result (shift + 7)
      (r.1, r.2 + 1)

/-- `decodeLeb128` from `src/src/utils/leb128.ts`: the source's for-loop
returns only the accumulated value. -/
def decodeLeb128 (bytes : List Nat) : Nat :=
  (decodeLeb128Go bytes 0 0).1

/-! ### Arithmetic facts about the byte operations -/

theorem and127_eq_mod (v : Nat) : v &&& 127 = v % 128 := by
  have h1 : (127 : Nat) = 2 ^ 7 - 1 := by norm_num
  have h2 : (128 : Nat) = 2 ^ 7 := by norm_num
  rw [h1, h2, Nat.and_pow_two_sub_one_eq_mod]

theorem and127_lt (v : Nat) : v &&& 127 < 128 := by
  rw [and127_eq_mod]; omega

theorem and128_eq_zero {x : Nat} (h : x < 128) : x &&& 128 = 0 := by
  have h2 : (128 : Nat) = 2 ^ 7 := by norm_num
  rw [h2, Nat.and_two_pow]
  have hb : x.testBit 7 = false := Nat.testBit_lt_two_pow (by omega)
  simp [hb]

theorem or128_and128 (x : Nat) : (x ||| 128) &&& 128 ≠ 0 := by
  have h2 : (128 : Nat) = 2 ^ 7 := by norm_num
  rw [h2, Nat.and_two_pow]
  have hb : (x ||| 2 ^ 7).testBit 7 = true := by
    rw [Nat.testBit_or, Nat.testBit_two_pow_self, Bool.or_true]
  rw [hb]
  decide

theorem or128_and127 {x : Nat} (h : x < 128) : (x ||| 128) &&& 127 = x := by
  apply Nat.eq_of_testBit_eq
  intro i
  have h1 : (127 : Nat) = 2 ^ 7 - 1 := by norm_num
  have h2 : (128 : Nat) = 2 ^ 7 := by norm_num
  rw [Nat.testBit_and, Nat.testBit_or, h1, h2, Nat.testBit_two_pow_sub_one,
    Nat.testBit_two_pow]
  by_cases hi : i < 7
  · have h7 : ¬(7 = i) := by omega
    simp [hi, h7]
  · have hx : x.testBit i = false := Nat.testBit_lt_two_pow (by
      calc x < 128 := h
        _ = 2 ^ 7 := by norm_num
        _ ≤ 2 ^ i := Nat.pow_le_pow_right (by omega) (by omega))
    simp [hi, hx]

/-- Splitting a value into its low 7 bits and the rest, at any shift
position: the key step in the decode-of-encode induction. -/
theorem shift_split (v s : Nat) :
    ((v &&& 127) <<< s) ||| ((v >>> 7) <<< (s + 7)) = v <<< s := by
  apply Nat.eq_of_testBit_eq
  intro i
  rw [Nat.testBit_or, Nat.testBit_shiftLeft, Nat.testBit_shiftLeft,
    Nat.testBit_shiftLeft, and127_eq_mod]
  have h2 : (128 : Nat) = 2 ^ 7 := by norm_num
  rw [h2, Nat.testBit_mod_two_pow, Nat.testBit_shiftRight]
  by_cases hs : s ≤ i
  · by_cases h7 : s + 7 ≤ i
    · have e1 : ¬(i - s < 7) := by omega
      have e2 : 7 + (i - (s + 7)) = i - s := by omega
      simp [hs, h7, e1, e2]
    · have e1 : i - s < 7 := by omega
      simp [hs, h7, e1]
  · have h7 : ¬(s + 7 ≤ i) := by omega
    simp [hs, h7]

/-! ### Shape of the encoder output -/

theorem encodeLeb128Go_irrel :
    ∀ fuel₁ fuel₂ v, v < fuel₁ → v < fuel₂ →
      encodeLeb128Go fuel₁ v = encodeLeb128Go fuel₂ v := by
  intro fuel₁
  induction fuel₁ with
  | zero => intro fuel₂ v h1; omega
  | succ f ih =>
    intro fuel₂ v h1 h2
    match fuel₂, h2 with
    | f₂ + 1, h2 =>
      show encodeLeb128Go (f + 1) v = encodeLeb128Go (f₂ + 1) v
      unfold encodeLeb128Go
      by_cases hc : v >>> 7 = 0 ∧ (v &&& 0x7f) &&& 0x40 = 0
      · simp [hc]
      · have hv : v ≠ 0 := by
          intro h0; subst h0; exact hc (by decide)
        have hlt : v >>> 7 < v := by
          rw [Nat.shiftRight_eq_div_pow]
          exact Nat.div_lt_self (by omega) (by norm_num)
        simp only [hc, if_false]
        rw [ih f₂ (v >>> 7) (by omega) (by omega)]

/-- Unfolding equation for `encodeLeb128` with the fuel hidden. -/
theorem encodeLeb128_eq (v : Nat) :
    encodeLeb128 v =
      if v >>> 7 = 0 ∧ (v &&& 0x7f) &&& 0x40 = 0 then
        [v &&& 0x7f]
      else
        ((v &&& 0x7f) ||| 0x80) :: encodeLeb128 (v >>> 7) := by
  show encodeLeb128Go (v + 1) v = _
  unfold encodeLeb128Go
  by_cases hc : v >>> 7 = 0 ∧ (v &&& 0x7f) &&& 0x40 = 0
  · simp [hc]
  · have hv : v ≠ 0 := by
      intro h0; subst h0; exact hc (by decide)
    have hlt : v >>> 7 < v := by
      rw [Nat.shiftRight_eq_div_pow]
      exact Nat.div_lt_self (by omega) (by norm_num)
    simp only [hc, if_false]
    rw [encodeLeb128Go_irrel v (v >>> 7 + 1) (v >>> 7) (by omega) (by omega)]
    rfl

theorem encodeLeb128_ne_nil (v : Nat) : encodeLeb128 v ≠ [] := by
  rw [encodeLeb128_eq]
  by_cases hc : v >>> 7 = 0 ∧ (v &&& 0x7f) &&& 0x40 = 0 <;> simp [hc]

/-- Every byte of an encoding except the last carries the continuation
bit; consequently every proper nonempty prefix of an encoding consists of
continuation bytes only. -/
theorem encodeLeb128_take_cont (v : Nat) :
    ∀ k, k < (encodeLeb128 v).length →
      ∀ b ∈ (encodeLeb128 v).take k, b &&& 0x80 ≠ 0 := by
  induction v using Nat.strong_induction_on with
  | _ v ih =>
    intro k hk b hb
    rw [encodeLeb128_eq] at hk hb
    by_cases hc : v >>> 7 = 0 ∧ (v &&& 0x7f) &&& 0x40 = 0
    · rw [if_pos hc] at hk hb
      have hk0 : k = 0 := by simp at hk; omega
      subst hk0
      exact absurd hb (by simp)
    · have hv : v ≠ 0 := by
        intro h0; subst h0; exact hc (by decide)
      have hlt : v >>> 7 < v := by
        rw [Nat.shiftRight_eq_div_pow]
        exact Nat.div_lt_self (by omega) (by norm_num)
      rw [if_neg hc] at hk hb
      match k, hk with
      | 0, _ => exact absurd hb (by simp)
      | k + 1, hk =>
        simp only [List.take_succ_cons, List.mem_cons] at hb
        rcases hb with hb | hb
        · subst hb; exact or128_and128 _
        · exact ih (v >>> 7) hlt k (by simpa using hk) b hb

/-- Decoding an encoded value, followed by arbitrary trailing bytes,
stops exactly at the encoding's terminating byte and recovers the value
(shifted into the accumulated result). -/
theorem decodeLeb128Go_encode (v : Nat) :
    ∀ (acc s : Nat) (rest : List Nat),
      decodeLeb128Go (encodeLeb128 v ++ rest) acc s =
        (acc ||| v <<< s, (encodeLeb128 v).length) := by
  induction v using Nat.strong_induction_on with
  | _ v ih =>
    intro acc s rest
    rw [encodeLeb128_eq]
    by_cases hc : v >>> 7 = 0 ∧ (v &&& 0x7f) &&& 0x40 = 0
    · simp only [hc, if_true, List.cons_append, List.nil_append]
      show (if (v &&& 0x7f) &&& 0x80 = 0 then _ else _) = _
      have hlt : v &&& 0x7f < 128 := and127_lt v
      rw [if_pos (and128_eq_zero hlt)]
      have hv : v &&& 0x7f = v := by
        rw [and127_eq_mod]
        have : v < 128 := by
          have := hc.1
          rw [Nat.shiftRight_eq_div_pow] at this
          omega
        omega
      simp [hc, hv]
    · have hv : v ≠ 0 := by
        intro h0; subst h0; exact hc (by decide)
      have hlt : v >>> 7 < v := by
        rw [Nat.shiftRight_eq_div_pow]
        exact Nat.div_lt_self (by omega) (by norm_num)
      simp only [hc, if_false, List.cons_append]
      show (if ((v &&& 0x7f) ||| 0x80) &&& 0x80 = 0 then _ else _) = _
      rw [if_neg (or128_and128 _)]
      have h127 : ((v &&& 0x7f) ||| 0x80) &&& 0x7f = v &&& 0x7f :=
        or128_and127 (and127_lt v)
      rw [h127, ih (v >>> 7) hlt (acc ||| ((v &&& 0x7f) <<< s)) (s + 7) rest]
      rw [Nat.or_assoc, shift_split]
      simp [List.length_cons]

/-- C1 (round trip): `decodeLeb128 (encodeLeb128 v) = v`, the decoder
consumes exactly the encoding (any trailing bytes are ignored and the
byte count examined equals the encoding length), and zero encodes to the
single byte `0x00`. -/
theorem leb128_roundtrip (v : Nat) (junk : List Nat) :
    decodeLeb128 (encodeLeb128 v ++ junk) = v ∧
      decodeLeb128Go (encodeLeb128 v ++ junk) 0 0 =
        (v, (encodeLeb128 v).length) ∧
      decodeLeb128 (encodeLeb128 v) = v ∧
      encodeLeb128 0 = [0] := by
  have h := decodeLeb128Go_encode v 0 0 junk
  have h2 := decodeLeb128Go_encode v 0 0 []
  rw [Nat.zero_or, Nat.shiftLeft_zero] at h h2
  rw [List.append_nil] at h2
  refine ⟨?_, h, ?_, by decide⟩
  · show (decodeLeb128Go (encodeLeb128 v ++ junk) 0 0).1 = v
    rw [h]
  · show (decodeLeb128Go (encodeLeb128 v) 0 0).1 = v
    rw [h2]

/-! ### Behaviour of the decoder on input without a terminating byte -/

theorem decodeLeb128Go_append_zero :
    ∀ (l : List Nat) (acc s : Nat), (∀ b ∈ l, b &&& 0x80 ≠ 0) →
      (decodeLeb128Go (l ++ [0]) acc s).1 = (decodeLeb128Go l acc s).1 := by
  intro l
  induction l with
  | nil => intro acc s _; simp [decodeLeb128Go]
  | cons b rest ih =>
    intro acc s h
    have hb : b &&& 0x80 ≠ 0 := h b (by simp)
    simp only [List.cons_append, decodeLeb128Go, hb, if_neg hb]
    exact ih _ _ (fun x hx => h x (by simp [hx]))

/-- C5 (amended): on a byte sequence in which every byte has the
continuation bit `0x80` set — so the input is exhausted before any
terminating byte — `decodeLeb128` does not fail: the source has no error
path, and it returns the value accumulated from all 7-bit groups, i.e.
the same value as if a terminating `0x00` byte were appended. -/
theorem decodeLeb128_no_terminator (l : List Nat)
    (h : ∀ b ∈ l, b &&& 0x80 ≠ 0) :
    decodeLeb128 l = decodeLeb128 (l ++ [0]) := by
  show (decodeLeb128Go l 0 0).1 = (decodeLeb128Go (l ++ [0]) 0 0).1
  rw [decodeLeb128Go_append_zero l 0 0 h]

theorem decodeLeb128_no_terminator_witness :
    decodeLeb128 [0x81] = decodeLeb128 [0x81, 0] :=
  decodeLeb128_no_terminator [0x81] (by decide)

/-- C5 (counterexample): on the input `[0x80]`, which is exhausted before
any byte with the continuation bit clear, `decodeLeb128` returns the value
`0` — it does not raise a `MalformedVarInt` error (the source function has
no failure path at all). -/
theorem decodeLeb128_returns_value_on_malformed : decodeLeb128 [0x80] = 0 := by
  decide

/-! ## Rune name encoding (`encodeRuneName` in the rune utils module) -/

/-- The loop of `encodeRuneName`: `value = value * 26 + (charCode - 65)`,
failing when a character falls outside A–Z. -/
def encodeRuneNameGo : List Char → Nat → Except String Nat
  | [], value => .ok value
  | c :: rest, value =>
    let code : Int := (c.toNat : Int) - 65
    if code < 0 ∨ code > 25 then
      .error "Invalid character in rune name"
    else
      encodeRuneNameGo rest (value * 26 + code.toNat)

/-- `encodeRuneName`: strip the spacer glyph, uppercase, then accumulate
base-26 digits with A = 0. -/
def encodeRuneName (name : String) : Except String Nat :=
  encodeRuneNameGo ((name.data.filter (fun c => c ≠ '•')).map Char.toUpper) 0

/-- C10: the name encoding accepts the empty string and spacer-only
strings, returning `0` without an error, and it is not injective:
`"A"` and `"AA"` are distinct valid names with the same encoded integer. -/
theorem encodeRuneName_not_injective :
    encodeRuneName "" = .ok 0 ∧ encodeRuneName "•" = .ok 0 ∧
      encodeRuneName "A" = .ok 0 ∧ encodeRuneName "AA" = .ok 0 ∧
      ("A" : String) ≠ "AA" :=
  ⟨rfl, rfl, rfl, rfl, by decide⟩

/-- C4: evaluating the code at the failing input `"AA"`.  The encoder maps
both `"A"` and `"AA"` to `0`, so no decoder can recover the stripped name
from the encoded integer; the code also contradicts its own documentation
comment, which states `A=0, Z=25, AA=26`. -/
theorem encodeRuneName_collision :
    encodeRuneName "AA" = .ok 0 ∧ encodeRuneName "A" = .ok 0 ∧
      encodeRuneName "AA" ≠ .ok 26 :=
  ⟨rfl, rfl, by intro h; exact absurd (Except.ok.inj h) (by decide)⟩

/-! ## Tagged payload serialization (`createRunestonePayload` in the rune
utils module) -/

def RunestoneTag.Body : Nat := 0
def RunestoneTag.Divisibility : Nat := 1
def RunestoneTag.Spacers : Nat := 2
def RunestoneTag.Symbol : Nat := 3
def RunestoneTag.Rune : Nat := 4
def RunestoneTag.Premine : Nat := 5
def RunestoneTag.Cap : Nat := 6
def RunestoneTag.Amount : Nat := 7
def RunestoneTag.HeightStart : Nat := 8
def RunestoneTag.HeightEnd : Nat := 9
def RunestoneTag.OffsetStart : Nat := 10
def RunestoneTag.OffsetEnd : Nat := 11
def RunestoneTag.Mint : Nat := 12
def RunestoneTag.Pointer : Nat := 13

def RunestoneFlag.Etching : Nat := 0x01
def RunestoneFlag.Terms : Nat := 0x02
def RunestoneFlag.Turbo : Nat := 0x04

structure MintTerms where
  amount : Option Nat
  cap : Option Nat
  heightStart : Option Nat
  heightEnd : Option Nat
  offsetStart : Option Nat
  offsetEnd : Option Nat

/-- The options record accepted by `createRunestonePayload`.  The symbol
is modelled as an optional character (the source reads
`symbol.charCodeAt(0)` of a string that the UI restricts to one
character, and skips the field when the string is absent or empty);
`mint` carries the transaction id as its byte list together with the
output index. -/
structure PayloadOptions where
  divisibility : Option Nat
  premine : Option Nat
  runeName : Option String
  spacers : Option Nat
  symbol : Option Char
  terms : Option MintTerms
  mint : Option (List Nat × Nat)
  pointer : Option Nat
  turbo : Bool

/-- A field pushed under `if (... !== undefined)`. -/
def optField (tag : Nat) : Option Nat → List (Nat × Nat)
  | some v => [(tag, v)]
  | none => []

/-- `flags = Etching; if turbo flags |= Turbo; if terms flags |= Terms`. -/
def runestoneFlags (o : PayloadOptions) : Nat :=
  (RunestoneFlag.Etching ||| (if o.turbo then RunestoneFlag.Turbo else 0)) |||
    (if o.terms.isSome then RunestoneFlag.Terms else 0)

def symbolField (o : PayloadOptions) : List (Nat × Nat) :=
  match o.symbol with
  | some ch => [(RunestoneTag.Symbol, ch.toNat)]
  | none => []

def runeField (o : PayloadOptions) : Except String (List (Nat × Nat)) :=
  match o.runeName with
  | some n =>
    if n = "" then .ok []
    else (encodeRuneName n).map (fun v => [(RunestoneTag.Rune, v)])
  | none => .ok []

def termsFields (o : PayloadOptions) : List (Nat × Nat) :=
  match o.terms with
  | some t =>
    optField RunestoneTag.Amount t.amount ++
      optField RunestoneTag.Cap t.cap ++
      optField RunestoneTag.HeightStart t.heightStart ++
      optField RunestoneTag.HeightEnd t.heightEnd ++
      optField RunestoneTag.OffsetStart t.offsetStart ++
      optField RunestoneTag.OffsetEnd t.offsetEnd
  | none => []

def bytesToNatBE (bytes : List Nat) : Nat :=
  bytes.foldl (fun acc b => acc * 256 + b) 0

/-- `BigInt(0x <reversed txid hex> <2-digit vout hex>)`; the output index
occupies exactly two hex digits (every caller passes `vout ≤ 0xff`). -/
def mintIdentifier (txid : List Nat) (vout : Nat) : Nat :=
  bytesToNatBE txid.reverse * 256 + vout

def mintField (o : PayloadOptions) : List (Nat × Nat) :=
  match o.mint with
  | some (txid, vout) => [(RunestoneTag.Mint, mintIdentifier txid vout)]
  | none => []

/-- The ordered `fields` array built by `createRunestonePayload`: flags
first, then divisibility, spacers, symbol, rune name, premine, the mint
terms, the mint reference, and the pointer — each only if supplied.  The
`Except` propagates the error `encodeRuneName` may raise. -/
def runestoneFields (o : PayloadOptions) : Except String (List (Nat × Nat)) :=
  (runeField o).map (fun rf =>
    (RunestoneTag.Body, runestoneFlags o) ::
      (optField RunestoneTag.Divisibility o.divisibility ++
        optField RunestoneTag.Spacers o.spacers ++
        symbolField o ++ rf ++
        optField RunestoneTag.Premine o.premine ++
        termsFields o ++ mintField o ++
        optField RunestoneTag.Pointer o.pointer))

/-- `Buffer.concat(fields.map(field => [leb128(tag), leb128(value)]))`. -/
def encodeFields (fields : List (Nat × Nat)) : List Nat :=
  (fields.map (fun f => encodeLeb128 f.1 ++ encodeLeb128 f.2)).flatten

def runestonePayload (o : PayloadOptions) : Except String (List Nat) :=
  (runestoneFields o).map encodeFields

theorem optField_mem {t : Nat} {ov : Option Nat} {f : Nat × Nat}
    (h : f ∈ optField t ov) : f.1 = t := by
  cases ov with
  | none => simp [optField] at h
  | some v => simp [optField] at h; rw [h]

theorem symbolField_mem {o : PayloadOptions} {f : Nat × Nat}
    (h : f ∈ symbolField o) : f.1 = RunestoneTag.Symbol := by
  unfold symbolField at h
  cases hs : o.symbol with
  | none => rw [hs] at h; simp at h
  | some ch => rw [hs] at h; simp at h; rw [h]

theorem runeField_mem {o : PayloadOptions} {rf : List (Nat × Nat)}
    {f : Nat × Nat} (hrf : runeField o = .ok rf) (h : f ∈ rf) :
    f.1 = RunestoneTag.Rune := by
  cases hn : o.runeName with
  | none =>
    simp only [runeField, hn] at hrf
    cases hrf
    simp at h
  | some n =>
    simp only [runeField, hn] at hrf
    by_cases he : n = ""
    · rw [if_pos he] at hrf
      cases hrf
      simp at h
    · rw [if_neg he] at hrf
      cases henc : encodeRuneName n with
      | error e => rw [henc] at hrf; simp [Except.map] at hrf
      | ok v =>
        rw [henc] at hrf
        simp [Except.map] at hrf
        subst hrf
        simp at h
        rw [h]

/-- C3: with mint terms present, the serialized field list starts with the
flags field (bitwise OR of the Etching, Terms and Turbo constants, Terms
always set, Turbo set exactly when requested), the payload is the
concatenation of `varint(tag) ++ varint(value)` over the fields in order,
and the amount field immediately precedes the cap field while every
height/offset field (tags 8–11) comes after both (the fields before them
all carry tags below 6). -/
theorem runestone_field_order
    (o : PayloadOptions) (t : MintTerms) (a c : Nat) (fs : List (Nat × Nat))
    (ht : o.terms = some t) (ha : t.amount = some a) (hc : t.cap = some c)
    (hfs : runestoneFields o = .ok fs) :
    fs.head? = some (RunestoneTag.Body, runestoneFlags o) ∧
      runestoneFlags o &&& RunestoneFlag.Etching ≠ 0 ∧
      runestoneFlags o &&& RunestoneFlag.Terms ≠ 0 ∧
      (o.turbo = true ↔ runestoneFlags o &&& RunestoneFlag.Turbo ≠ 0) ∧
      runestonePayload o = .ok (encodeFields fs) ∧
      ∃ p s, fs = p ++ (RunestoneTag.Amount, a) :: (RunestoneTag.Cap, c) :: s ∧
        ∀ f ∈ p, f.1 < 6 := by
  have hflags : runestoneFlags o =
      (RunestoneFlag.Etching ||| (if o.turbo then RunestoneFlag.Turbo else 0)) |||
        RunestoneFlag.Terms := by
    simp [runestoneFlags, ht]
  have hflag2 : runestoneFlags o &&& RunestoneFlag.Etching ≠ 0 ∧
      runestoneFlags o &&& RunestoneFlag.Terms ≠ 0 ∧
      (o.turbo = true ↔ runestoneFlags o &&& RunestoneFlag.Turbo ≠ 0) := by
    rw [hflags]
    cases ho : o.turbo <;> simp <;> decide
  have hpay : runestonePayload o = .ok (encodeFields fs) := by
    show (runestoneFields o).map encodeFields = _
    rw [hfs]
    rfl
  cases hrf : runeField o with
  | error e =>
    unfold runestoneFields at hfs
    rw [hrf] at hfs
    exact absurd hfs (by simp [Except.map])
  | ok rf =>
    unfold runestoneFields at hfs
    rw [hrf] at hfs
    replace hfs : Except.ok ((RunestoneTag.Body, runestoneFlags o) ::
        (optField RunestoneTag.Divisibility o.divisibility ++
          optField RunestoneTag.Spacers o.spacers ++
          symbolField o ++ rf ++
          optField RunestoneTag.Premine o.premine ++
          termsFields o ++ mintField o ++
          optField RunestoneTag.Pointer o.pointer)) = .ok fs := hfs
    injection hfs with hfs
    subst hfs
    refine ⟨List.head?_cons, hflag2.1, hflag2.2.1, hflag2.2.2, hpay, ?_⟩
    refine ⟨(RunestoneTag.Body, runestoneFlags o) ::
        (optField RunestoneTag.Divisibility o.divisibility ++
          optField RunestoneTag.Spacers o.spacers ++
          symbolField o ++ rf ++
          optField RunestoneTag.Premine o.premine),
      (optField RunestoneTag.HeightStart t.heightStart ++
          optField RunestoneTag.HeightEnd t.heightEnd ++
          optField RunestoneTag.OffsetStart t.offsetStart ++
          optField RunestoneTag.OffsetEnd t.offsetEnd) ++
        mintField o ++ optField RunestoneTag.Pointer o.pointer, ?_, ?_⟩
    · simp [termsFields, ht, ha, hc, optField, List.append_assoc]
    · intro f hf
      simp only [List.mem_cons, List.mem_append] at hf
      rcases hf with rfl | ((((hf | hf) | hf) | hf) | hf)
      · exact show RunestoneTag.Body < 6 by decide
      · rw [optField_mem hf]; decide
      · rw [optField_mem hf]; decide
      · rw [symbolField_mem hf]; decide
      · rw [runeField_mem hrf hf]; decide
      · rw [optField_mem hf]; decide

/-- Concrete etching options exercising the mint-terms path. -/
def etchOptionsW : PayloadOptions :=
  { divisibility := some 2, premine := some 1000, runeName := some "AB",
    spacers := none, symbol := some 'X',
    terms := some { amount := some 10, cap := some 5, heightStart := some 100,
                    heightEnd := none, offsetStart := none, offsetEnd := none },
    mint := none, pointer := none, turbo := true }

def etchFieldsW : List (Nat × Nat) :=
  [(0, 7), (1, 2), (3, 88), (4, 1), (5, 1000), (7, 10), (6, 5), (8, 100)]

theorem runestone_field_order_witness :
    etchFieldsW.head? = some (RunestoneTag.Body, runestoneFlags etchOptionsW) ∧
      runestoneFlags etchOptionsW &&& RunestoneFlag.Etching ≠ 0 ∧
      runestoneFlags etchOptionsW &&& RunestoneFlag.Terms ≠ 0 ∧
      (etchOptionsW.turbo = true ↔
        runestoneFlags etchOptionsW &&& RunestoneFlag.Turbo ≠ 0) ∧
      runestonePayload etchOptionsW = .ok (encodeFields etchFieldsW) ∧
      ∃ p s, etchFieldsW =
          p ++ (RunestoneTag.Amount, 10) :: (RunestoneTag.Cap, 5) :: s ∧
        ∀ f ∈ p, f.1 < 6 :=
  runestone_field_order etchOptionsW
    ⟨some 10, some 5, some 100, none, none, none⟩ 10 5 etchFieldsW
    rfl rfl rfl rfl

/-! ## Envelope framing (`createRunestoneEnvelope` in the rune utils
module) -/

/-- The chunk list returned by `createRunestoneEnvelope`: `OP_FALSE`,
`OP_IF`, the ASCII bytes of `"ord"`, the version byte, the payload, the
chunk the source comments as the terminator, and `OP_ENDIF`. -/
def createRunestoneEnvelope (payload : List Nat) : List (List Nat) :=
  [[0x00], [0x63], [0x6f, 0x72, 0x64], [0x01], payload, [0x00], [0x68]]

/-- C9: evaluating the framer.  The chunk list is the fixed template with
the payload as the only varying chunk, but the sixth chunk — which the
source's own comment calls an empty terminator buffer — is the one-byte
chunk `[0x00]`, not an empty chunk. -/
theorem envelope_terminator_not_empty :
    createRunestoneEnvelope [0x02] =
      [[0x00], [0x63], [0x6f, 0x72, 0x64], [0x01], [0x02], [0x00], [0x68]] ∧
      (createRunestoneEnvelope [0x02])[5]? = some [0x00] ∧
      ([0x00] : List Nat) ≠ [] := by
  decide

/-! ## Reveal fee computation (`createRunestoneReveal` in the
commit/reveal bitcoin module) -/

/-- The fee-related outcome of `createRunestoneReveal`: the value of the
recipient output and the reported fee split (the transaction id comes
from the external broadcaster). -/
structure RevealCalc where
  recipientValue : Int
  totalFee : Nat
  minerFee : Nat
  devFee : Nat

/-- `Math.ceil(feeRate * estimatedSize * 1.2)`: the miner fee with the
source's 20% buffer, `1.2` taken exactly as `6/5`. -/
def revealFee (feeRate estimatedSize : Nat) : Nat :=
  ⌈((feeRate : ℚ) * (estimatedSize : ℚ)) * (6 / 5)⌉₊

/-- The value/fee logic of `createRunestoneReveal`: compute the buffered
fee, subtract it from the funding value, fail on values at or below the
dust limit 546 — before the signing step, which the source performs only
after this check — and otherwise pay the whole remainder to the
recipient, reporting a 90%/10% miner/service split of the fee (each side
rounded down). -/
def createRunestoneRevealFees (utxoValue feeRate estimatedSize : Nat) :
    Except String RevealCalc :=
  if (utxoValue : Int) - revealFee feeRate estimatedSize ≤ 546 then
    .error "Insufficient funds after fee calculation"
  else
    .ok { recipientValue := (utxoValue : Int) - revealFee feeRate estimatedSize,
          totalFee := revealFee feeRate estimatedSize,
          minerFee := ⌊(revealFee feeRate estimatedSize : ℚ) * (9 / 10)⌋₊,
          devFee := ⌊(revealFee feeRate estimatedSize : ℚ) * (1 / 10)⌋₊ }

theorem floor_nine_tenths (f : Nat) : ⌊(f : ℚ) * (9 / 10)⌋₊ = 9 * f / 10 := by
  rw [show (f : ℚ) * (9 / 10) = ((9 * f : ℕ) : ℚ) / ((10 : ℕ) : ℚ) by
    push_cast; ring]
  rw [Nat.floor_div_nat, Nat.floor_natCast]

theorem floor_one_tenth (f : Nat) : ⌊(f : ℚ) * (1 / 10)⌋₊ = f / 10 := by
  rw [show (f : ℚ) * (1 / 10) = ((f : ℕ) : ℚ) / ((10 : ℕ) : ℚ) by
    push_cast; ring]
  rw [Nat.floor_div_nat, Nat.floor_natCast]

/-- C2 (amended): for funding value `V`, fee rate `r` and estimated size
`s`, the reveal builder computes `fee = ceil(1.2 * r * s)`, raises the
insufficient-funds error — before any signing call, which the source
issues only after this point — exactly when `V - fee ≤ 546`, and
otherwise makes the recipient output `V - fee` (strictly above the dust
limit); the reported miner/service fees are `floor(0.9*fee)` and
`floor(0.1*fee)`, which never exceed the fee actually charged. -/
theorem reveal_fee_behaviour (V r s : Nat) :
    ((V : Int) - revealFee r s ≤ 546 →
      createRunestoneRevealFees V r s =
        .error "Insufficient funds after fee calculation") ∧
    (546 < (V : Int) - revealFee r s →
      createRunestoneRevealFees V r s =
        .ok { recipientValue := (V : Int) - revealFee r s,
              totalFee := revealFee r s,
              minerFee := 9 * revealFee r s / 10,
              devFee := revealFee r s / 10 } ∧
      546 < (V : Int) - revealFee r s ∧
      9 * revealFee r s / 10 + revealFee r s / 10 ≤ revealFee r s) := by
  constructor
  · intro h
    unfold createRunestoneRevealFees
    rw [if_pos h]
  · intro h
    unfold createRunestoneRevealFees
    rw [if_neg (by omega)]
    refine ⟨?_, h, by omega⟩
    rw [floor_nine_tenths, floor_one_tenth]

theorem reveal_fee_behaviour_witness :
    createRunestoneRevealFees 10000 15 184 =
      .ok { recipientValue := 6688, totalFee := 3312,
            minerFee := 2980, devFee := 331 } := by
  have hfee : revealFee 15 184 = 3312 := by norm_num [revealFee]
  have h := (reveal_fee_behaviour 10000 15 184).2 (by rw [hfee]; norm_num)
  rw [hfee] at h
  exact h.1.trans (by norm_num)

/-- The fee formulas exactly as the specification words them, for
comparison with the source computation: `minerFee = ceil(estimatedSize *
feeRatePerByte)` and `serviceFee = clamp(minerFee * 0.10, MIN, MAX)`. -/
def specMinerFee (feeRate estimatedSize : Nat) : Nat :=
  ⌈((estimatedSize : ℚ) * (feeRate : ℚ))⌉₊

def specServiceFee (minerFee lo hi : Nat) : ℚ :=
  min (hi : ℚ) (max (lo : ℚ) ((minerFee : ℚ) * (1 / 10)))

/-- C2 (counterexample): at funding value 10000, fee rate 15 and
estimated size 184 — the spec's own scenario — the source charges a
buffered fee of 3312 and reports `minerFee = 2980`, not
`ceil(184 * 15) = 2760`, and pays the recipient `6688`, not
`10000 - 2760 - clamp(276, 1500, 4999) = 5740`; no clamped service-fee
output exists in the reveal builder. -/
theorem reveal_fee_counterexample :
    createRunestoneRevealFees 10000 15 184 =
      .ok { recipientValue := 6688, totalFee := 3312,
            minerFee := 2980, devFee := 331 } ∧
    specMinerFee 15 184 = 2760 ∧
    (2980 : Nat) ≠ 2760 ∧
    specServiceFee 2760 1500 4999 = 1500 ∧
    ((6688 : ℚ) ≠ 10000 - 2760 - 1500) := by
  refine ⟨?_, by norm_num [specMinerFee], by norm_num,
    by norm_num [specServiceFee], by norm_num⟩
  have hfee : revealFee 15 184 = 3312 := by norm_num [revealFee]
  unfold createRunestoneRevealFees
  rw [hfee]
  rw [if_neg (by norm_num)]
  congr 1
  rw [floor_nine_tenths, floor_one_tenth]
  norm_num

/-! ## Payload parsing -/

/-- Modelled from the spec: the varint decode contract of §4.1 with its
failure case — `parsePayload` and a decode that reports exhaustion are
described in the spec but absent from `src/`.  Accumulates 7-bit groups
least-significant-first until a byte with the continuation bit clear is
read, failing with `MalformedVarInt` when the input is exhausted first;
returns the value and the unread remainder. -/
def decodeVarIntCheckedGo : List Nat → Nat → Nat → Except String (Nat × List Nat)
  | [], _, _ => .error "MalformedVarInt"
  | b :: rest, acc, shift =>
    let acc := acc ||| ((b &&& 0x7f) <<< shift)
    if b &&& 0x80 = 0 then
      .ok (acc, rest)
    else
      decodeVarIntCheckedGo rest acc (shift + 7)

/-- Modelled from the spec: `parsePayload` (§4.4), absent from `src/`.
Reads sequential (tag, value) varint pairs until the buffer is exhausted;
an incomplete trailing field is a `TruncatedPayload` error.  Each parsed
pair consumes at least one byte, so fuel equal to the buffer length never
runs out; a nonempty buffer at fuel 0 is already a truncated field. -/
def parsePayloadGo : Nat → List Nat → Except String (List (Nat × Nat))
  | _, [] => .ok []
  | 0, _ :: _ => .error "TruncatedPayload"
  | fuel + 1, b :: bs =>
    match decodeVarIntCheckedGo (b :: bs) 0 0 with
    | .error _ => .error "TruncatedPayload"
    | .ok (tag, rest1) =>
      match decodeVarIntCheckedGo rest1 0 0 with
      | .error _ => .error "TruncatedPayload"
      | .ok (value, rest2) =>
        (parsePayloadGo fuel rest2).map (fun ps => (tag, value) :: ps)

def parsePayload (bytes : List Nat) : Except String (List (Nat × Nat)) :=
  parsePayloadGo bytes.length bytes

theorem decodeVarIntCheckedGo_encode (v : Nat) :
    ∀ (acc s : Nat) (rest : List Nat),
      decodeVarIntCheckedGo (encodeLeb128 v ++ rest) acc s =
        .ok (acc ||| v <<< s, rest) := by
  induction v using Nat.strong_induction_on with
  | _ v ih =>
    intro acc s rest
    rw [encodeLeb128_eq]
    by_cases hc : v >>> 7 = 0 ∧ (v &&& 0x7f) &&& 0x40 = 0
    · simp only [hc, if_true, List.cons_append, List.nil_append]
      show (if (v &&& 0x7f) &&& 0x80 = 0 then _ else _) = _
      rw [if_pos (and128_eq_zero (and127_lt v))]
      have hv : v &&& 0x7f = v := by
        rw [and127_eq_mod]
        have h7 : v < 128 := by
          have := hc.1
          rw [Nat.shiftRight_eq_div_pow] at this
          omega
        omega
      simp [hv]
    · have hv : v ≠ 0 := by
        intro h0; subst h0; exact hc (by decide)
      have hlt : v >>> 7 < v := by
        rw [Nat.shiftRight_eq_div_pow]
        exact Nat.div_lt_self (by omega) (by norm_num)
      simp only [hc, if_false, List.cons_append]
      show (if ((v &&& 0x7f) ||| 0x80) &&& 0x80 = 0 then _ else _) = _
      rw [if_neg (or128_and128 _)]
      have h127 : ((v &&& 0x7f) ||| 0x80) &&& 0x7f = v &&& 0x7f :=
        or128_and127 (and127_lt v)
      rw [h127, ih (v >>> 7) hlt (acc ||| ((v &&& 0x7f) <<< s)) (s + 7) rest]
      rw [Nat.or_assoc, shift_split]

theorem decodeVarIntCheckedGo_all_cont :
    ∀ (l : List Nat) (acc s : Nat), (∀ b ∈ l, b &&& 0x80 ≠ 0) →
      decodeVarIntCheckedGo l acc s = .error "MalformedVarInt" := by
  intro l
  induction l with
  | nil => intro acc s _; rfl
  | cons b rest ih =>
    intro acc s h
    have hb : b &&& 0x80 ≠ 0 := h b (by simp)
    show (if b &&& 0x80 = 0 then _ else _) = _
    rw [if_neg hb]
    exact ih _ _ (fun x hx => h x (by simp [hx]))

theorem parsePayloadGo_zero (bytes : List Nat) (hne : bytes ≠ []) :
    parsePayloadGo 0 bytes = .error "TruncatedPayload" := by
  cases bytes with
  | nil => exact absurd rfl hne
  | cons b bs => rfl

theorem parsePayloadGo_succ (fuel : Nat) (bytes : List Nat) (hne : bytes ≠ []) :
    parsePayloadGo (fuel + 1) bytes =
      match decodeVarIntCheckedGo bytes 0 0 with
      | .error _ => .error "TruncatedPayload"
      | .ok (tag, rest1) =>
        match decodeVarIntCheckedGo rest1 0 0 with
        | .error _ => .error "TruncatedPayload"
        | .ok (value, rest2) =>
          (parsePayloadGo fuel rest2).map (fun ps => (tag, value) :: ps) := by
  cases bytes with
  | nil => exact absurd rfl hne
  | cons b bs => rfl

/-- A nonempty strict prefix of a single encoded (tag, value) field makes
`parsePayloadGo` fail with `TruncatedPayload`, at any fuel. -/
theorem parsePayloadGo_truncated_field (t v k : Nat) (hk0 : 0 < k)
    (hklen : k < (encodeLeb128 t ++ encodeLeb128 v).length) (fuel : Nat) :
    parsePayloadGo fuel ((encodeLeb128 t ++ encodeLeb128 v).take k) =
      .error "TruncatedPayload" := by
  have hT1 : 1 ≤ (encodeLeb128 t).length :=
    List.length_pos.mpr (encodeLeb128_ne_nil t)
  have hV1 : 1 ≤ (encodeLeb128 v).length :=
    List.length_pos.mpr (encodeLeb128_ne_nil v)
  rw [List.take_append_eq_append_take]
  by_cases hkt : k < (encodeLeb128 t).length
  · -- truncated inside the tag varint
    have hzero : k - (encodeLeb128 t).length = 0 := by omega
    rw [hzero, List.take_zero, List.append_nil]
    have hcont := encodeLeb128_take_cont t k hkt
    have hne : (encodeLeb128 t).take k ≠ [] := by
      intro h0
      have : ((encodeLeb128 t).take k).length = 0 := by rw [h0]; rfl
      rw [List.length_take] at this
      omega
    cases fuel with
    | zero => exact parsePayloadGo_zero _ hne
    | succ f =>
      rw [parsePayloadGo_succ f _ hne,
        decodeVarIntCheckedGo_all_cont _ 0 0 hcont]
  · -- the whole tag is present; the value varint is missing or truncated
    have hkt2 : (encodeLeb128 t).length ≤ k := by omega
    rw [List.take_of_length_le hkt2]
    have hrest : k - (encodeLeb128 t).length < (encodeLeb128 v).length := by
      rw [List.length_append] at hklen; omega
    have hne : encodeLeb128 t ++
        (encodeLeb128 v).take (k - (encodeLeb128 t).length) ≠ [] := by
      intro h0
      exact encodeLeb128_ne_nil t (List.append_eq_nil.mp h0).1
    have hd1 : decodeVarIntCheckedGo
        (encodeLeb128 t ++
          (encodeLeb128 v).take (k - (encodeLeb128 t).length)) 0 0 =
        .ok (t, (encodeLeb128 v).take (k - (encodeLeb128 t).length)) := by
      simpa using decodeVarIntCheckedGo_encode t 0 0
        ((encodeLeb128 v).take (k - (encodeLeb128 t).length))
    cases fuel with
    | zero => exact parsePayloadGo_zero _ hne
    | succ f =>
      rw [parsePayloadGo_succ f _ hne, hd1]
      by_cases hk2 : k - (encodeLeb128 t).length = 0
      · rw [hk2, List.take_zero]
        rfl
      · have hcont := encodeLeb128_take_cont v (k - (encodeLeb128 t).length) hrest
        change (match decodeVarIntCheckedGo
            ((encodeLeb128 v).take (k - (encodeLeb128 t).length)) 0 0 with
          | Except.error _ => Except.error "TruncatedPayload"
          | Except.ok (value, rest2) =>
            (parsePayloadGo f rest2).map (fun ps => (t, value) :: ps)) = _
        rw [decodeVarIntCheckedGo_all_cont _ 0 0 hcont]

theorem encodeFields_cons (t v : Nat) (ps : List (Nat × Nat)) :
    encodeFields ((t, v) :: ps) =
      encodeLeb128 t ++ (encodeLeb128 v ++ encodeFields ps) := by
  simp [encodeFields, List.append_assoc]

theorem parsePayloadGo_encodeFields :
    ∀ (ps : List (Nat × Nat)) (fuel : Nat), (encodeFields ps).length ≤ fuel →
      parsePayloadGo fuel (encodeFields ps) = .ok ps := by
  intro ps
  induction ps with
  | nil => intro fuel _; cases fuel <;> rfl
  | cons p ps ih =>
    obtain ⟨t, v⟩ := p
    intro fuel h
    rw [encodeFields_cons] at h ⊢
    have hT1 : 1 ≤ (encodeLeb128 t).length :=
      List.length_pos.mpr (encodeLeb128_ne_nil t)
    have hV1 : 1 ≤ (encodeLeb128 v).length :=
      List.length_pos.mpr (encodeLeb128_ne_nil v)
    have hne : encodeLeb128 t ++ (encodeLeb128 v ++ encodeFields ps) ≠ [] := by
      intro h0
      exact encodeLeb128_ne_nil t (List.append_eq_nil.mp h0).1
    rw [List.length_append, List.length_append] at h
    cases fuel with
    | zero => omega
    | succ fuel =>
      rw [parsePayloadGo_succ fuel _ hne]
      have hd1 : decodeVarIntCheckedGo
          (encodeLeb128 t ++ (encodeLeb128 v ++ encodeFields ps)) 0 0 =
          .ok (t, encodeLeb128 v ++ encodeFields ps) := by
        simpa using decodeVarIntCheckedGo_encode t 0 0 _
      rw [hd1]
      change (match decodeVarIntCheckedGo
          (encodeLeb128 v ++ encodeFields ps) 0 0 with
        | Except.error _ => Except.error "TruncatedPayload"
        | Except.ok (value, rest2) =>
          (parsePayloadGo fuel rest2).map (fun qs => (t, value) :: qs)) = _
      have hd2 : decodeVarIntCheckedGo
          (encodeLeb128 v ++ encodeFields ps) 0 0 =
          .ok (v, encodeFields ps) := by
        simpa using decodeVarIntCheckedGo_encode v 0 0 _
      rw [hd2]
      change (parsePayloadGo fuel (encodeFields ps)).map
        (fun qs => (t, v) :: qs) = _
      rw [ih fuel (by omega)]
      rfl

theorem parsePayloadGo_append_truncated :
    ∀ (ps : List (Nat × Nat)) (t v k : Nat), 0 < k →
      k < (encodeLeb128 t ++ encodeLeb128 v).length → ∀ fuel,
      parsePayloadGo fuel
          (encodeFields ps ++ (encodeLeb128 t ++ encodeLeb128 v).take k) =
        .error "TruncatedPayload" := by
  intro ps
  induction ps with
  | nil =>
    intro t v k hk0 hklen fuel
    have h0 : encodeFields [] = [] := rfl
    rw [h0, List.nil_append]
    exact parsePayloadGo_truncated_field t v k hk0 hklen fuel
  | cons p ps ih =>
    obtain ⟨a, b⟩ := p
    intro t v k hk0 hklen fuel
    rw [encodeFields_cons, List.append_assoc, List.append_assoc]
    have hne : encodeLeb128 a ++ (encodeLeb128 b ++
        (encodeFields ps ++ (encodeLeb128 t ++ encodeLeb128 v).take k)) ≠ [] := by
      intro h0
      exact encodeLeb128_ne_nil a (List.append_eq_nil.mp h0).1
    cases fuel with
    | zero => exact parsePayloadGo_zero _ hne
    | succ f =>
      rw [parsePayloadGo_succ f _ hne]
      have hd1 : decodeVarIntCheckedGo (encodeLeb128 a ++ (encodeLeb128 b ++
          (encodeFields ps ++ (encodeLeb128 t ++ encodeLeb128 v).take k))) 0 0 =
          .ok (a, encodeLeb128 b ++
            (encodeFields ps ++ (encodeLeb128 t ++ encodeLeb128 v).take k)) := by
        simpa using decodeVarIntCheckedGo_encode a 0 0 _
      rw [hd1]
      change (match decodeVarIntCheckedGo (encodeLeb128 b ++
          (encodeFields ps ++ (encodeLeb128 t ++ encodeLeb128 v).take k)) 0 0 with
        | Except.error _ => Except.error "TruncatedPayload"
        | Except.ok (value, rest2) =>
          (parsePayloadGo f rest2).map (fun qs => (a, value) :: qs)) = _
      have hd2 : decodeVarIntCheckedGo (encodeLeb128 b ++
          (encodeFields ps ++ (encodeLeb128 t ++ encodeLeb128 v).take k)) 0 0 =
          .ok (b, encodeFields ps ++ (encodeLeb128 t ++ encodeLeb128 v).take k) := by
        simpa using decodeVarIntCheckedGo_encode b 0 0 _
      rw [hd2]
      change (parsePayloadGo f
          (encodeFields ps ++ (encodeLeb128 t ++ encodeLeb128 v).take k)).map
        (fun qs => (a, b) :: qs) = _
      rw [ih t v k hk0 hklen f]
      rfl

/-- C8: a complete byte stream of concatenated varint (tag, value) pairs
parses back to exactly those pairs, and a stream that ends midway through
a trailing field — a nonempty strict prefix of one more encoded pair —
makes `parsePayload` fail with `TruncatedPayload` instead of returning
any mapping. -/
theorem parsePayload_pairs (ps : List (Nat × Nat)) (t v k : Nat)
    (hk0 : 0 < k) (hklen : k < (encodeLeb128 t ++ encodeLeb128 v).length) :
    parsePayload (encodeFields ps) = .ok ps ∧
      parsePayload (encodeFields ps ++
          (encodeLeb128 t ++ encodeLeb128 v).take k) =
        .error "TruncatedPayload" :=
  ⟨parsePayloadGo_encodeFields ps _ le_rfl,
    parsePayloadGo_append_truncated ps t v k hk0 hklen _⟩

theorem parsePayload_pairs_witness :
    parsePayload (encodeFields [(2, 5)]) = .ok [(2, 5)] ∧
      parsePayload (encodeFields [(2, 5)] ++
          (encodeLeb128 4 ++ encodeLeb128 300).take 2) =
        .error "TruncatedPayload" :=
  parsePayload_pairs [(2, 5)] 4 300 2 (by decide) (by decide)

/-! ## Funding selection and the submission state machine
(`handleSubmit` in src/src/App.tsx) -/

structure Utxo where
  txid : String
  vout : Nat
  value : Nat
  confirmed : Bool
deriving DecidableEq

/-- `utxos.reduce((prev, current) => (prev.value > current.value) ? prev :
current)`: JavaScript `reduce` without an initial value starts from the
first element. -/
def largestUtxo : Utxo → List Utxo → Utxo
  | prev, [] => prev
  | prev, current :: rest =>
    largestUtxo (if prev.value > current.value then prev else current) rest

theorem largestUtxo_mem : ∀ (rest : List Utxo) (u : Utxo),
    largestUtxo u rest ∈ u :: rest := by
  intro rest
  induction rest with
  | nil => intro u; simp [largestUtxo]
  | cons c cs ih =>
    intro u
    have hstep : largestUtxo u (c :: cs) =
        largestUtxo (if u.value > c.value then u else c) cs := rfl
    rw [hstep]
    rcases List.mem_cons.mp (ih (if u.value > c.value then u else c)) with h | h
    · rw [h]
      by_cases hcmp : u.value > c.value
      · rw [if_pos hcmp]
        exact List.mem_cons_self _ _
      · rw [if_neg hcmp]
        exact List.mem_cons_of_mem _ (List.mem_cons_self _ _)
    · exact List.mem_cons_of_mem _ (List.mem_cons_of_mem _ h)

theorem largestUtxo_max : ∀ (rest : List Utxo) (u x : Utxo),
    x ∈ u :: rest → x.value ≤ (largestUtxo u rest).value := by
  intro rest
  induction rest with
  | nil =>
    intro u x hx
    simp at hx
    rw [hx]
    exact Nat.le_refl _
  | cons c cs ih =>
    intro u x hx
    have hstep : largestUtxo u (c :: cs) =
        largestUtxo (if u.value > c.value then u else c) cs := rfl
    rw [hstep]
    have hu : u.value ≤ (if u.value > c.value then u else c).value := by
      by_cases hcmp : u.value > c.value
      · simp [hcmp]
      · simp [hcmp]; omega
    have hc : c.value ≤ (if u.value > c.value then u else c).value := by
      by_cases hcmp : u.value > c.value
      · simp [hcmp]; omega
      · simp [hcmp]
    have hw := ih (if u.value > c.value then u else c) _
      (List.mem_cons_self (if u.value > c.value then u else c) cs)
    rcases List.mem_cons.mp hx with rfl | hx2
    · exact le_trans hu hw
    · rcases List.mem_cons.mp hx2 with rfl | hx3
      · exact le_trans hc hw
      · exact ih _ x (List.mem_cons_of_mem _ hx3)

theorem largestUtxo_last : ∀ (rest : List Utxo) (u : Utxo),
    ((u :: rest).filter
        (fun x => x.value == (largestUtxo u rest).value)).getLast? =
      some (largestUtxo u rest) := by
  intro rest
  induction rest with
  | nil =>
    intro u
    simp [largestUtxo]
  | cons c cs ih =>
    intro u
    have hstep : largestUtxo u (c :: cs) =
        largestUtxo (if u.value > c.value then u else c) cs := rfl
    rw [hstep]
    by_cases hcmp : u.value > c.value
    · rw [if_pos hcmp] at *
      have ihw := ih u
      have humax : u.value ≤ (largestUtxo u cs).value :=
        largestUtxo_max cs u u (List.mem_cons_self u cs)
      have hcne : (c.value == (largestUtxo u cs).value) = false := by
        rw [beq_eq_false_iff_ne]
        omega
      have h2 : (c :: cs).filter
          (fun x => x.value == (largestUtxo u cs).value) =
          cs.filter (fun x => x.value == (largestUtxo u cs).value) :=
        List.filter_cons_of_neg (by simp [hcne])
      show ((u :: c :: cs).filter
          (fun x => x.value == (largestUtxo u cs).value)).getLast? = _
      rw [List.filter_cons, h2]
      rw [List.filter_cons] at ihw
      exact ihw
    · rw [if_neg hcmp] at *
      have ihw := ih c
      have hcmax : c.value ≤ (largestUtxo c cs).value :=
        largestUtxo_max cs c c (List.mem_cons_self c cs)
      by_cases hue : u.value = (largestUtxo c cs).value
      · have hcr : c.value = (largestUtxo c cs).value := by omega
        have hpu : (u.value == (largestUtxo c cs).value) = true :=
          beq_iff_eq.mpr hue
        have hpc : (c.value == (largestUtxo c cs).value) = true :=
          beq_iff_eq.mpr hcr
        show ((u :: c :: cs).filter
            (fun x => x.value == (largestUtxo c cs).value)).getLast? = _
        rw [List.filter_cons_of_pos (by simp [hpu])]
        rw [show (u :: (c :: cs).filter
            (fun x => x.value == (largestUtxo c cs).value)) =
            [u] ++ (c :: cs).filter
              (fun x => x.value == (largestUtxo c cs).value) from rfl]
        rw [List.getLast?_append, ihw]
        rfl
      · have hpu : (u.value == (largestUtxo c cs).value) = false :=
          beq_eq_false_iff_ne.mpr hue
        show ((u :: c :: cs).filter
            (fun x => x.value == (largestUtxo c cs).value)).getLast? = _
        rw [List.filter_cons_of_neg (by simp [hpu])]
        exact ihw

/-- C7 (counterexample): two unspent outputs share the maximal value; the
selection in `handleSubmit` returns the second one — the last-seen among
the equal maxima — not the first-seen, because JavaScript `reduce` with
`(prev.value > current.value) ? prev : current` replaces `prev` on
ties. -/
theorem largestUtxo_tie_last_seen :
    largestUtxo ⟨"tx-a", 0, 1000, true⟩ [⟨"tx-b", 1, 1000, true⟩] =
      ⟨"tx-b", 1, 1000, true⟩ ∧
      (⟨"tx-b", 1, 1000, true⟩ : Utxo) ≠ ⟨"tx-a", 0, 1000, true⟩ := by
  constructor
  · rfl
  · decide

/-- C7 (amended): funding selection returns an element of the list of
greatest value, and among several outputs sharing the maximum it
deterministically returns the last-seen one; in particular, with outputs
of value 546 and 1000 it selects the 1000-value output. -/
theorem largestUtxo_spec (u : Utxo) (rest : List Utxo) :
    largestUtxo u rest ∈ u :: rest ∧
      (∀ x ∈ u :: rest, x.value ≤ (largestUtxo u rest).value) ∧
      ((u :: rest).filter
          (fun x => x.value == (largestUtxo u rest).value)).getLast? =
        some (largestUtxo u rest) ∧
      largestUtxo ⟨"commit-a", 0, 546, true⟩ [⟨"commit-b", 1, 1000, true⟩] =
        ⟨"commit-b", 1, 1000, true⟩ :=
  ⟨largestUtxo_mem rest u, fun x hx => largestUtxo_max rest u x hx,
    largestUtxo_last rest u, rfl⟩

inductive TxStatus where
  | idle
  | waitingForPay
  | fetchingUTXO
  | creatingReveal
  | success
  | error
deriving DecidableEq

structure RevealRes where
  txId : String
  totalFee : Nat
  minerFee : Nat
  devFee : Nat
deriving DecidableEq

/-- The React state of `App`: the commit address and key, the observed
funding outpoint, the status, the error message and the reveal result. -/
structure AppState where
  commitAddr : Option String
  commitKey : Option (List Nat)
  commitUtxo : Option (String × Nat)
  status : TxStatus
  errorMsg : String
  txResult : Option RevealRes
deriving DecidableEq

/-- The results that the three awaited external calls of `handleSubmit`
would produce if reached: commit-address generation, the unspent-output
listing, and the reveal transaction. -/
structure ExtCalls where
  generateCommit : Except String (String × List Nat)
  listUnspent : Except String (List Utxo)
  reveal : Except String RevealRes

/-- The catch block of `handleSubmit`.  `entryStatus` is the `status`
variable the block reads: React state bindings are constants within one
render, so it is the status at the moment the handler was invoked, not
the value passed to `setStatus` during this run. -/
def catchBlock (entryStatus : TxStatus) (s : AppState) (msg : String) :
    AppState :=
  let s := { s with errorMsg := msg, status := TxStatus.error }
  if entryStatus = TxStatus.creatingReveal then
    { s with commitUtxo := none }
  else
    s

/-- One invocation of `handleSubmit`: clear the error and result, then
run the first applicable phase — commit-address generation when no
commit address exists (after form validation), funding lookup when no
funding outpoint is known, and otherwise reveal construction — with the
catch block handling a failure of the awaited call.  The validation
outcome of the form is passed in as `validationError`. -/
def handleSubmit (s₀ : AppState) (validationError : Option String)
    (ext : ExtCalls) : AppState :=
  let s := { s₀ with errorMsg := "", txResult := none }
  match s.commitAddr with
  | none =>
    match validationError with
    | some e => { s with errorMsg := e, status := TxStatus.error }
    | none =>
      let s := { s with status := TxStatus.waitingForPay }
      match ext.generateCommit with
      | .ok (payTo, internalKey) =>
        { s with commitAddr := some payTo, commitKey := some internalKey }
      | .error e => catchBlock s₀.status s e
  | some addr =>
    if s.commitUtxo = none then
      let s := { s with status := TxStatus.fetchingUTXO }
      match ext.listUnspent with
      | .ok [] =>
        { s with errorMsg := "Waiting for ~546 sats to be sent to " ++ addr,
                 status := TxStatus.error }
      | .ok (u :: rest) =>
        let largest := largestUtxo u rest
        { s with commitUtxo := some (largest.txid, largest.vout) }
      | .error e => catchBlock s₀.status s e
    else
      match s.commitKey with
      | some _ =>
        let s := { s with status := TxStatus.creatingReveal }
        match ext.reveal with
        | .ok r => { s with txResult := some r, status := TxStatus.success }
        | .error e => catchBlock s₀.status s e
      | none => s

/-- C6: when the reveal call raises, `handleSubmit` moves to the error
state while keeping the observed funding outpoint together with the
commit address and key, so a subsequent submission runs reveal
construction directly — for any later external results whatsoever, a
successful reveal call completes the flow, without the funding lookup
being consulted.  The hypothesis that the entry status is not
`creatingReveal` holds at every reachable invocation: the submit control
is disabled while that status is shown, and the stale closure the catch
block reads makes its `commitUtxo` reset dead code there. -/
theorem reveal_failure_keeps_funding (s : AppState) (addr : String)
    (key : List Nat) (txu : String × Nat) (e : String)
    (v : Option String) (ext : ExtCalls)
    (ha : s.commitAddr = some addr) (hk : s.commitKey = some key)
    (hu : s.commitUtxo = some txu)
    (hs : s.status ≠ TxStatus.creatingReveal)
    (hr : ext.reveal = .error e) :
    (handleSubmit s v ext).status = TxStatus.error ∧
      (handleSubmit s v ext).commitUtxo = some txu ∧
      (handleSubmit s v ext).commitAddr = some addr ∧
      (handleSubmit s v ext).commitKey = some key ∧
      (handleSubmit s v ext).errorMsg = e ∧
      ∀ (ext₂ : ExtCalls) (v₂ : Option String) (r : RevealRes),
        ext₂.reveal = .ok r →
          (handleSubmit (handleSubmit s v ext) v₂ ext₂).status =
              TxStatus.success ∧
            (handleSubmit (handleSubmit s v ext) v₂ ext₂).txResult = some r := by
  have hpost : handleSubmit s v ext =
      { commitAddr := some addr, commitKey := some key,
        commitUtxo := some txu, status := TxStatus.error,
        errorMsg := e, txResult := none } := by
    simp [handleSubmit, ha, hk, hu, hr, catchBlock, hs]
  refine ⟨by rw [hpost], by rw [hpost], by rw [hpost], by rw [hpost],
    by rw [hpost], ?_⟩
  intro ext₂ v₂ r hr2
  rw [hpost]
  constructor <;> simp [handleSubmit, hr2]

/-- A state in which funding has already been observed. -/
def appStateW : AppState :=
  { commitAddr := some "tb1p-commit", commitKey := some [1, 2, 3],
    commitUtxo := some ("commit-txid", 0), status := TxStatus.error,
    errorMsg := "", txResult := none }

def extFailW : ExtCalls :=
  { generateCommit := .error "unused", listUnspent := .ok [],
    reveal := .error "Reveal transaction failed: Insufficient funds" }

def extOkW : ExtCalls :=
  { generateCommit := .error "unused", listUnspent := .ok [],
    reveal := .ok { txId := "reveal-txid", totalFee := 3312,
                    minerFee := 2980, devFee := 331 } }

theorem reveal_failure_keeps_funding_witness :
    (handleSubmit appStateW none extFailW).status = TxStatus.error ∧
      (handleSubmit appStateW none extFailW).commitUtxo =
        some ("commit-txid", 0) ∧
      (handleSubmit (handleSubmit appStateW none extFailW) none extOkW).status =
        TxStatus.success ∧
      (handleSubmit (handleSubmit appStateW none extFailW) none
          extOkW).txResult =
        some { txId := "reveal-txid", totalFee := 3312,
               minerFee := 2980, devFee := 331 } := by
  have h := reveal_failure_keeps_funding appStateW "tb1p-commit" [1, 2, 3]
    ("commit-txid", 0) "Reveal transaction failed: Insufficient funds" none
    extFailW rfl rfl rfl (by decide) rfl
  have h2 := h.2.2.2.2.2 extOkW none
    { txId := "reveal-txid", totalFee := 3312, minerFee := 2980, devFee := 331 }
    rfl
  exact ⟨h.1, h.2.1, h2.1, h2.2⟩
